import Mathlib

/-!
Verification of the convex-structures geometry engine (TypeScript) against
its specification, over a shallow embedding in Lean.

Modelling conventions, used throughout and noted again at each definition
they affect:

* JS numbers are modelled as real numbers (`ℝ`).  Properties are stated and
  proved in exact real arithmetic.
* Where the source can produce a non-finite float (NaN or ±Infinity) and a
  claim depends on that value, the embedded function returns `Option ℝ`,
  with `none` standing for "the source's result is not a (finite) real
  number".  Where a non-finite intermediate value merely makes a comparison
  false in the source (IEEE comparisons with NaN are false, and ±Infinity
  fails one of the two bounds of an interval test), the embedding instead
  conjoins the explicit condition "the denominator is nonzero" to that
  comparison, which has the same effect on the control flow.
* Mutable loops are embedded as folds over explicit state; reference
  equality (`==` on objects) is embedded as value equality, noted where it
  occurs.
-/

noncomputable section

/-- The fixed tolerance of linalg.ts (part_011): `const EPSILON = 0.0001`. -/
def EPSILON : ℝ := 0.0001

/-! ## Vectors as lists (linalg.ts, part_011)

`Vector` in the source is a column matrix; we embed it as `List ℝ`.
-/

/-- `Vector.normSquared`: the dot product of the vector with itself. -/
def vecNormSq (v : List ℝ) : ℝ := (v.map fun a => a * a).sum

/-- `Vector.norm`: square root of `normSquared`. -/
def vecNorm (v : List ℝ) : ℝ := Real.sqrt (vecNormSq v)

/-- `Vector.normalize`: scale by the reciprocal of the norm (division by a
zero norm is the source's ±Infinity/NaN; no claim depends on that case). -/
def vecNormalize (v : List ℝ) : List ℝ := v.map fun a => a / vecNorm v

/-- The mutation `this.mat[this.rows - 1][0] = 0` performed by `homogenize`'s
fallback branch: zero the LAST coordinate (not the coordinate at `idx`).
On the empty vector the source's assignment at index -1 changes nothing. -/
def vecZeroLast (v : List ℝ) : List ℝ :=
  match v with
  | [] => []
  | _ => v.take (v.length - 1) ++ [0]

/-- `Vector.homogenize(idx)` from linalg.ts (part_011, lines 309-321):

    let z = this.at(idx);
    if (z >= EPSILON) { divide every coordinate by z }
    else { this.mat[this.rows - 1][0] = 0; return this.normalize(); }

Note the branch test is the SIGNED comparison `z >= EPSILON`, and the
fallback zeroes the last coordinate, whatever `idx` is. -/
def homogenize (v : List ℝ) (idx : ℕ) : List ℝ :=
  let z := v.getD idx 0
  if EPSILON ≤ z then v.map fun a => a / z
  else vecNormalize (vecZeroLast v)

/-- Modelled from the spec: the affine-chart branch the spec describes for
`homogenize` — "divides all coordinates by the coordinate at idx". -/
def homogenizeChart (v : List ℝ) (idx : ℕ) : List ℝ :=
  v.map fun a => a / v.getD idx 0

/-! ## Matrices as lists of rows, with the source's error behaviour (C9) -/

/-- The error taxonomy relevant to the linear-algebra layer:
`dimensionMismatch` models `throw new Error("Dimension mismatch")`;
`typeFault` models the TypeError the JS runtime raises when code reads a
property of `undefined` (e.g. `other.mat[i][0]` past the end of `mat`). -/
inductive LinErr where
  | dimensionMismatch : LinErr
  | typeFault : LinErr

/-- `Matrix.rows` (the constructor sets it to `mat.length`). -/
def matRows (M : List (List ℝ)) : ℕ := M.length

/-- `Matrix.columns` (the constructor sets it to `mat[0].length`, 0 when empty). -/
def matCols (M : List (List ℝ)) : ℕ := (M.headD []).length

/-- `Matrix.at(i, j)`, with 0 for the source's out-of-range `undefined`
(claims only evaluate it in range). -/
def matAt (M : List (List ℝ)) (i j : ℕ) : ℝ := (M.getD i []).getD j 0

/-- `Matrix.multiply` (part_011, lines 159-174): checks
`this.columns != other.rows` and throws "Dimension mismatch"; otherwise the
result is `this.rows × other.columns` with sums over `other.rows`. -/
def matMul (A B : List (List ℝ)) : Except LinErr (List (List ℝ)) :=
  if matCols A ≠ matRows B then .error .dimensionMismatch
  else .ok ((List.range (matRows A)).map fun i =>
    (List.range (matCols B)).map fun j =>
      ((List.range (matRows B)).map fun k => matAt A i k * matAt B k j).sum)

/-- `Matrix.add` (part_011): checks both dimensions, throws "Dimension
mismatch" on a difference; `Vector.add` delegates to it on n×1 columns, so
for vectors only the row count can differ. -/
def vecAdd (v w : List ℝ) : Except LinErr (List ℝ) :=
  if v.length ≠ w.length then .error .dimensionMismatch
  else .ok (List.zipWith (fun a b => a + b) v w)

/-- `Vector.subtract` (part_011, lines 270-276): NO dimension check.

    let res = Array(this.rows);
    for (let i = 0; i < this.rows; ++i) res[i] = [this.mat[i][0] - other.mat[i][0]];

Reading `other.mat[i][0]` for `i` past `other`'s rows raises a TypeError
(modelled `typeFault`); a LONGER `other` is silently truncated to
`this.rows` entries with no error of any kind. -/
def vecSub (v w : List ℝ) : Except LinErr (List ℝ) :=
  if w.length < v.length then .error .typeFault
  else .ok ((List.range v.length).map fun i => v.getD i 0 - w.getD i 0)

/-! ### C6: homogenize -/

/-- C6 (corrected).  The claim as frozen: `homogenize(idx)` divides by the
coordinate at `idx`, and falls back to the zero-and-normalize branch exactly
when the MAGNITUDE of that coordinate is below `EPSILON`.  Counterexample:
`v = [1, 0, -1]`, `idx = 2`.  The magnitude of the pivot is `1 ≥ EPSILON`,
so the claim requires the divided vector `[-1, 0, 1]`; the code's signed
test `z >= EPSILON` fails on `z = -1` and it returns the fallback
`[1, 0, 0]` instead. -/
theorem C6_counterexample :
    EPSILON ≤ |(-1 : ℝ)| ∧
    homogenize [1, 0, -1] 2 = [1, 0, 0] ∧
    homogenizeChart [1, 0, -1] 2 = [-1, 0, 1] ∧
    ([1, 0, 0] : List ℝ) ≠ [-1, 0, 1] := by
  refine ⟨by norm_num [EPSILON], ?_, ?_, by norm_num⟩
  · have hcond : ¬ (EPSILON ≤ ([1, 0, -1] : List ℝ).getD 2 0) := by
      norm_num [EPSILON]
    simp only [homogenize, if_neg hcond]
    norm_num [vecNormalize, vecZeroLast, vecNorm, vecNormSq]
  · norm_num [homogenizeChart]

/-- C6 (amended).  What `homogenize` actually does: it divides by the
coordinate at `idx` exactly when that coordinate is `≥ EPSILON` as a SIGNED
value; otherwise (including for negative pivots of large magnitude) it
zeroes the LAST coordinate and normalizes the result. -/
theorem C6_amended (v : List ℝ) (idx : ℕ) :
    (EPSILON ≤ v.getD idx 0 → homogenize v idx = homogenizeChart v idx) ∧
    (v.getD idx 0 < EPSILON →
      homogenize v idx = vecNormalize (vecZeroLast v)) := by
  constructor
  · intro h
    simp only [homogenize, homogenizeChart, if_pos h]
  · intro h
    simp only [homogenize, if_neg (not_le.mpr h)]

/-- Witness for C6_amended at `v = [2, 4]`, `idx = 0` (division branch) and
at `v = [1, 0, -1]`, `idx = 2` (fallback branch). -/
theorem C6_amended_witness :
    homogenize [2, 4] 0 = homogenizeChart [2, 4] 0 ∧
    homogenize [1, 0, -1] 2 = vecNormalize (vecZeroLast [1, 0, -1]) := by
  constructor
  · exact (C6_amended [2, 4] 0).1 (by norm_num [EPSILON])
  · exact (C6_amended [1, 0, -1] 2).2 (by norm_num [EPSILON])

/-! ### C9: dimension errors -/

/-- C9 (counterexample).  The claim says `Vector.subtract` raises a
dimension-mismatch error whenever the operands' dimensions differ; but with
`this = [1]` (1 row) and `other = [1, 2]` (2 rows) the source returns the
1-row vector `[0]` and raises nothing. -/
theorem C9_counterexample :
    vecSub [1] [1, 2] = .ok [0] ∧
    ([(1 : ℝ)]).length ≠ ([1, 2] : List ℝ).length := by
  constructor
  · simp only [vecSub]
    norm_num [List.range_succ]
  · norm_num

/-- C9 (amended).  `Matrix.multiply` errors exactly on `columns ≠ rows`, and
`Vector.add` (through `Matrix.add`) errors exactly on differing lengths; but
`Vector.subtract` never checks: whenever the second operand is at least as
long it returns the element-wise difference over the first operand's length,
with no error. -/
theorem C9_amended :
    (∀ A B : List (List ℝ), matCols A ≠ matRows B →
      matMul A B = .error .dimensionMismatch) ∧
    (∀ v w : List ℝ, v.length ≠ w.length →
      vecAdd v w = .error .dimensionMismatch) ∧
    (∀ v w : List ℝ, v.length ≤ w.length →
      vecSub v w =
        .ok ((List.range v.length).map fun i => v.getD i 0 - w.getD i 0)) := by
  refine ⟨?_, ?_, ?_⟩
  · intro A B h
    simp only [matMul, if_pos h]
  · intro v w h
    simp only [vecAdd, if_pos h]
  · intro v w h
    simp only [vecSub, if_neg (not_lt.mpr h)]

/-- Witness for C9_amended: a 1×2 by 3×1 multiply errors, mismatched vector
addition errors, and a length-1 minus length-2 subtraction silently
succeeds. -/
theorem C9_amended_witness :
    matMul [[1, 2]] [[1]] = .error .dimensionMismatch ∧
    vecAdd [1] [1, 2] = .error .dimensionMismatch ∧
    vecSub [1] [1, 2] =
      .ok ((List.range ([(1 : ℝ)]).length).map
        fun i => ([(1 : ℝ)]).getD i 0 - ([1, 2] : List ℝ).getD i 0) := by
  refine ⟨?_, ?_, ?_⟩
  · exact C9_amended.1 [[1, 2]] [[1]] (by norm_num [matCols, matRows])
  · exact C9_amended.2.1 [1] [1, 2] (by norm_num)
  · exact C9_amended.2.2 [1] [1, 2] (by norm_num)

/-! ## 3D vectors and edges (geometry.ts / model.ts)

`model.ts` works exclusively with 3-entry vectors (affine plane points with
a homogeneous third coordinate); we embed those as a structure with fields
`x`, `y`, `z` matching the source's accessors `x()`, `y()`, `z()`. -/

@[ext]
structure Vec3 where
  x : ℝ
  y : ℝ
  z : ℝ

/-- The zero vector `Vector.zeros(3)`. -/
def v3zero : Vec3 := ⟨0, 0, 0⟩

/-- `Vector.subtract`, componentwise on 3-entry vectors. -/
def sub3 (u v : Vec3) : Vec3 := ⟨u.x - v.x, u.y - v.y, u.z - v.z⟩

/-- `Vector.add`, componentwise on 3-entry vectors. -/
def add3 (u v : Vec3) : Vec3 := ⟨u.x + v.x, u.y + v.y, u.z + v.z⟩

/-- `Vector.scale`. -/
def scale3 (c : ℝ) (u : Vec3) : Vec3 := ⟨c * u.x, c * u.y, c * u.z⟩

/-- `Vector.dot` on 3-entry vectors. -/
def dot3 (u v : Vec3) : ℝ := u.x * v.x + u.y * v.y + u.z * v.z

/-- `Vector.norm` on 3-entry vectors: `sqrt(dot(this, this))`. -/
def norm3 (u : Vec3) : ℝ := Real.sqrt (dot3 u u)

/-- `v.xy().norm()`: the affine (first-two-coordinates) norm used by the
cross-ratio formulas. -/
def normXY (u : Vec3) : ℝ := Real.sqrt (u.x * u.x + u.y * u.y)

/-- `Edge` from geometry.ts: a pair of vectors. -/
structure Edge where
  v1 : Vec3
  v2 : Vec3

/-- `Simplex` from geometry.ts: the vertex list (its `edges` field is
derived from the vertices by the constructor; see `simplexEdges`). -/
structure SimplexT where
  vertices : List Vec3

/-- The simplex constructor's edge list: `Edge(vertices[i],
vertices[(i+1) % vertices.length])` for `i = 0 .. n`. -/
def simplexEdges (vs : List Vec3) : List Edge :=
  (List.range vs.length).map fun i =>
    Edge.mk (vs.getD i v3zero) (vs.getD ((i + 1) % vs.length) v3zero)

/-! ## Determinant and inverse (geometry.ts uses `Matrix.inverse`)

The source's `Matrix.inverse` delegates to the external solver `mathjs.inv`
(linalg.ts line 156).  Modelled from the spec: "`inverse` delegates to a
numerically-stable external solver" computing the matrix inverse, embedded
here as the exact adjugate-over-determinant inverse (what the solver
computes, without rounding error).  The determinant is the source's own
cofactor expansion (`Matrix.determinant`): direct formulas for 1×1 and 2×2
and Laplace expansion along the first row otherwise.  The `fuel` argument
makes the recursion structural; `detM` supplies `M.length`, which is exact
for the square matrices the source inverts. -/
def detFuel : ℕ → List (List ℝ) → ℝ
  | _, [] => 0
  | _, [r] => r.getD 0 0
  | _, [r, s] => r.getD 0 0 * s.getD 1 0 - s.getD 0 0 * r.getD 1 0
  | 0, _ => 0
  | n + 1, r :: rest =>
      ((List.range (rest.length + 1)).map fun i =>
        (-1 : ℝ) ^ i * r.getD i 0 * detFuel n (rest.map fun row => row.eraseIdx i)).sum

/-- `Matrix.determinant` (cofactor expansion). -/
def detM (M : List (List ℝ)) : ℝ := detFuel M.length M

/-- The (r, c) minor: drop row r and column c. -/
def minorM (M : List (List ℝ)) (r c : ℕ) : List (List ℝ) :=
  (M.eraseIdx r).map fun row => row.eraseIdx c

/-- The exact inverse via the adjugate (see the comment above `detFuel`):
entry (i, j) is the (j, i) cofactor over the determinant. -/
def inverseM (M : List (List ℝ)) : List (List ℝ) :=
  (List.range M.length).map fun i =>
    (List.range M.length).map fun j =>
      ((-1 : ℝ) ^ (i + j) * detM (minorM M j i)) / detM M

/-! ## `Simplex.circumcircle` (geometry.ts, lines 75-107) -/

/-- `Simplex.circumcircle(d)`: build the (n+2)×(n+2) bordered matrix of
squared pairwise `d`-distances (zero diagonal, ones in the first row and
column), invert it, read the barycentric coordinates of the circumcenter
off row 0 (normalized by the sum `s` of entries 1..n+1 of that row, a
value the source recomputes identically for every `i`), and return the
center together with `sqrt(Q[0][0])`.  In real arithmetic `Real.sqrt` of a
negative entry is 0; in the source `Math.sqrt` of a negative entry is NaN. -/
def circumcircle (T : SimplexT) (d : Vec3 → Vec3 → ℝ) : Vec3 × ℝ :=
  let n := T.vertices.length - 1
  let M := (List.range (n + 2)).map fun i =>
    (List.range (n + 2)).map fun j =>
      if i = j then 0
      else if j = 0 then 1
      else if i = 0 then 1
      else (d (T.vertices.getD (i - 1) v3zero) (T.vertices.getD (j - 1) v3zero)) ^ 2
  let Q := inverseM M
  let s := ((List.range (n + 1)).map fun j => matAt Q 0 (j + 1)).sum
  let bc := (List.range (n + 1)).map fun i => matAt Q 0 (i + 1) / s
  let center := (List.range (n + 1)).foldl
    (fun acc i => add3 acc (scale3 (bc.getD i 0) (T.vertices.getD i v3zero))) v3zero
  (center, Real.sqrt (matAt Q 0 0))

/-- The Euclidean metric of the circumcircle test: `(v1, v2) => v1.subtract(v2).norm()`. -/
def dEuclid (u v : Vec3) : ℝ := norm3 (sub3 u v)

/-- The triangle of the circumcircle test (geometry.test.ts): vertices
(0,0,1), (0,1,1), (1,0,1). -/
def triC7 : SimplexT := ⟨[⟨0, 0, 1⟩, ⟨0, 1, 1⟩, ⟨1, 0, 1⟩]⟩

/-- Squaring a 3D norm recovers the dot product. -/
theorem norm3_sq (u : Vec3) : norm3 u ^ 2 = dot3 u u := by
  have h : 0 ≤ dot3 u u := by
    have := sq_nonneg u.x
    have := sq_nonneg u.y
    have := sq_nonneg u.z
    simp only [dot3]
    nlinarith
  simpa [norm3] using Real.sq_sqrt h

/-- C7 (code_bug).  Evaluating `circumcircle` on the test triangle with the
Euclidean metric, in exact arithmetic: the center comes out `(1/2, 1/2)` (as
the claim and geometry.test.ts state, with homogeneous coordinate 1), but
the radius is `sqrt` of the bordered-matrix inverse entry `Q[0][0] = -1`: in
the source `Math.sqrt(-1)` is NaN (here `Real.sqrt (-1) = 0`), not the
claimed `1/√2`. -/
theorem C7_circumcircle_bug :
    (circumcircle triC7 dEuclid).1 = ⟨1/2, 1/2, 1⟩ ∧
    (circumcircle triC7 dEuclid).2 = Real.sqrt (-1) ∧
    Real.sqrt (-1 : ℝ) = 0 ∧ (1 : ℝ) / Real.sqrt 2 ≠ 0 := by
  have hval : circumcircle triC7 dEuclid = (⟨1/2, 1/2, 1⟩, Real.sqrt (-1)) := by
    simp only [circumcircle, triC7, dEuclid, norm3_sq]
    norm_num [List.range_succ, inverseM, detM, detFuel, minorM, matAt,
      dot3, sub3, add3, scale3, v3zero]
  refine ⟨by rw [hval], by rw [hval], ?_, ?_⟩
  · exact Real.sqrt_eq_zero'.mpr (by norm_num)
  · have h2 : 0 < Real.sqrt 2 := Real.sqrt_pos.mpr (by norm_num)
    positivity

/-! ## `KleinModel.tesselate` — Bowyer–Watson (part_007, lines 373-433)

The source's loops use JS reference equality (`==` on `Edge` objects,
`!==` and `Array.includes` on `Simplex` objects); the embedding uses value
equality, noted per definition.  Conditions on reals are classical
propositions, so the list combinators below take `Prop`-valued predicates
(they are the source's explicit `for` loops). -/

open Classical in
/-- A `for` loop keeping the elements that satisfy `p` (in order). -/
def lfilter {α : Type} (p : α → Prop) : List α → List α
  | [] => []
  | a :: l => if p a then a :: lfilter p l else lfilter p l

/-- A `for` loop appending `f a` for each element in order. -/
def lflat {α β : Type} (f : α → List β) : List α → List β
  | [] => []
  | a :: l => f a ++ lflat f l

/-- `KleinModel.isBadEdge` (part_007, lines 373-381): true when `edge`
occurs among the edges of some bad triangle (the source compares with `==`;
since `edge` itself always comes from a bad triangle's edge list, the test
is true for every edge the caller feeds it — the inversion is part of what
makes `tesselate` degenerate, see C8). -/
def isBadEdge (bad : List SimplexT) (e : Edge) : Prop :=
  ∃ T ∈ bad, ∃ e2 ∈ simplexEdges T.vertices, e = e2

/-- The super triangle of `tesselate` (part_007, lines 386-390). -/
def superTriangle : SimplexT := ⟨[⟨0, 3, 1⟩, ⟨-2, -1, 1⟩, ⟨2, -1, 1⟩]⟩

/-- The "metric" `tesselate` passes to `circumcircle`: the raw dot product
`(v1, v2) => v1.dot(v2)` (not a distance function). -/
def dotD (u v : Vec3) : ℝ := dot3 u v

/-- One iteration of the Bowyer–Watson loop (part_007, lines 393-420):
collect the bad triangles (those whose circumcircle, computed with the dot
product, contains the point), collect their boundary through `isBadEdge`,
remove the bad triangles, and re-triangulate the cavity.  The source's
re-triangulation reads `edge[0]` and `edge[1]`, numeric indices that are
`undefined` on an `Edge` object (a further defect); it is modelled by the
evident `v1`/`v2`, and the runs proved about never reach this branch
because the cavity is always empty. -/
def btStep (tri : List SimplexT) (point : Vec3) : List SimplexT :=
  let bad := lfilter (fun T =>
    norm3 (sub3 point (circumcircle T dotD).1) ≤ (circumcircle T dotD).2) tri
  let poly := lflat
    (fun T => lfilter (fun e => isBadEdge bad e) (simplexEdges T.vertices)) bad
  let tri2 := lfilter (fun T => ¬ T ∈ bad) tri
  tri2 ++ poly.map fun e => SimplexT.mk [e.v1, e.v2, point]

/-- `KleinModel.tesselate` (part_007, lines 383-433): run the incremental
loop from the super triangle, then discard every triangle sharing a vertex
with the super triangle (the source filters while iterating; the net effect
on the runs proved about is this filter). -/
def kleinTesselate (points : List Vec3) : List SimplexT :=
  let r := points.foldl btStep [superTriangle]
  lfilter (fun T => ¬ ∃ v ∈ superTriangle.vertices, v ∈ T.vertices) r

/-- C8 (code_bug).  On the single input point `(0, 0, 1)` the final
triangulation is EMPTY, so the input point is a vertex of no retained
triangle.  In exact arithmetic the super triangle's "circumcircle" radius is
`sqrt(-8/3)` (NaN in the source, 0 here), the containment test fails, no bad
triangles are ever found, the triangulation stays `[superTriangle]`, and the
final filter removes it. -/
theorem C8_tesselate_empty : kleinTesselate [⟨0, 0, 1⟩] = [] := by
  have hcc : circumcircle superTriangle dotD = (⟨0, 1/3, 1⟩, Real.sqrt (-8/3)) := by
    simp only [circumcircle, superTriangle, dotD]
    norm_num [List.range_succ, inverseM, detM, detFuel, minorM, matAt,
      dot3, sub3, add3, scale3, v3zero]
  have hr0 : Real.sqrt (-8/3 : ℝ) = 0 := Real.sqrt_eq_zero'.mpr (by norm_num)
  have hcond : ¬ (norm3 (sub3 ⟨0, 0, 1⟩ (circumcircle superTriangle dotD).1) ≤
      (circumcircle superTriangle dotD).2) := by
    rw [hcc]
    have hpos : 0 < norm3 (sub3 ⟨0, 0, 1⟩ ⟨0, 1/3, 1⟩) := by
      simp only [norm3, sub3, dot3]
      apply Real.sqrt_pos.mpr
      norm_num
    simp only [hr0]
    exact not_le.mpr hpos
  have hmem : ∃ v ∈ superTriangle.vertices, v ∈ superTriangle.vertices := by
    refine ⟨⟨0, 3, 1⟩, ?_, ?_⟩ <;> simp [superTriangle]
  simp only [kleinTesselate, List.foldl, btStep, lfilter, lflat,
    if_neg hcond, List.not_mem_nil, not_false_iff, if_pos, List.map_nil,
    List.append_nil, if_neg (not_not_intro hmem)]

/-! ## `ConvexProjectiveModel.rayCast` (model.ts, lines 466-485)

The source returns `[t1, t2, intersectionPoint]`.  With `p` the ray origin,
`ray` its direction, `q` a point of the boundary edge and `w` the edge
direction, `t1` is the parameter along the ray (`ip = p + t1·ray`) and `t2`
the parameter along the edge.  All four formulas share the denominator
`±(rayy·wx − rayx·wy)`; when it vanishes the source's values are NaN or
±Infinity, so every interval test on them is false — the embedding keeps
the formulas total (Lean's `x / 0 = 0`) and conjoins `rayDen ≠ 0` to each
test that consumes them (see `isHit`, `cachePush`). -/

/-- The shared denominator `rayy*wx - rayx*wy` of `rayCast`'s formulas. -/
def rayDen (ray w : Vec3) : ℝ := ray.y * w.x - ray.x * w.y

/-- `t1` of `rayCast`, transliterated. -/
def rayT1 (p ray q w : Vec3) : ℝ :=
  -((q.y * w.x - q.x * w.y + w.y * p.x - w.x * p.y) / (-(ray.y * w.x) + ray.x * w.y))

/-- `t2` of `rayCast`, transliterated. -/
def rayT2 (p ray q w : Vec3) : ℝ :=
  -((ray.y * q.x - ray.x * q.y - ray.y * p.x + ray.x * p.y) / (ray.y * w.x - ray.x * w.y))

/-- The intersection point of `rayCast`, transliterated (third coordinate 1). -/
def rayIP (p ray q w : Vec3) : Vec3 :=
  ⟨-((-(ray.x * q.y * w.x) + ray.x * q.x * w.y - ray.y * w.x * p.x + ray.x * w.x * p.y) /
      (ray.y * w.x - ray.x * w.y)),
    -((ray.y * q.y * w.x - ray.y * q.x * w.y + ray.y * w.y * p.x - ray.x * w.y * p.y) /
      (-(ray.y * w.x) + ray.x * w.y)),
    1⟩

/-- `rayCast` itself: the triple `[t1, t2, ip]`. -/
def rayCast (p ray q w : Vec3) : ℝ × ℝ × Vec3 :=
  (rayT1 p ray q w, rayT2 p ray q w, rayIP p ray q w)

/-! ## `ConvexProjectiveModel.chord` (model.ts, lines 636-692) -/

/-- The running state of the chord scan: `tMin`/`tMax` start at
+∞/−∞ in the source, embedded as `none` (every real `t1` passes the first
comparison against them, and only finite `t1` values reach a comparison);
`a`/`b` start at the query points `x`/`y`; `foundEdges` counts hits. -/
structure ScanSt where
  tMin : Option ℝ
  tMax : Option ℝ
  a : Vec3
  b : Vec3
  found : ℕ

/-- The source's hit test `t2 >= 0 && t2 <= 1` on the edge `e`, with the
explicit `rayDen ≠ 0` conjunct standing for "t2 is a finite number" (see
the comment at `rayCast`; the ray is `x.subtract(y)` as in `chord`). -/
def isHit (x y : Vec3) (e : Edge) : Prop :=
  rayDen (sub3 x y) (sub3 e.v2 e.v1) ≠ 0 ∧
    0 ≤ rayT2 x (sub3 x y) e.v1 (sub3 e.v2 e.v1) ∧
    rayT2 x (sub3 x y) e.v1 (sub3 e.v2 e.v1) ≤ 1

open Classical in
/-- `if (t1 < tMin) { tMin = t1; a = intersectionPoint; }` (`tMin` starts
at +∞, embedded `none`, against which every real `t1` passes). -/
def updMin (t : ℝ) (ip : Vec3) (st : ScanSt) : ScanSt :=
  match st.tMin with
  | none => { st with tMin := some t, a := ip }
  | some m => if t < m then { st with tMin := some t, a := ip } else st

open Classical in
/-- `if (t1 > tMax) { tMax = t1; b = intersectionPoint; }`. -/
def updMax (t : ℝ) (ip : Vec3) (st : ScanSt) : ScanSt :=
  match st.tMax with
  | none => { st with tMax := some t, b := ip }
  | some m => if m < t then { st with tMax := some t, b := ip } else st

open Classical in
/-- The body of one iteration of `chord`'s boundary loop, without the loop
bound: on a hit, update `tMin`/`a` when `t1 < tMin`, update `tMax`/`b` when
`t1 > tMax`, and count the hit. -/
def chordStepAll (x y : Vec3) (st : ScanSt) (e : Edge) : ScanSt :=
  if isHit x y e then
    let t1 := rayT1 x (sub3 x y) e.v1 (sub3 e.v2 e.v1)
    let ip := rayIP x (sub3 x y) e.v1 (sub3 e.v2 e.v1)
    let st2 := updMax t1 ip (updMin t1 ip st)
    { st2 with found := st2.found + 1 }
  else st

open Classical in
/-- One iteration of `chord`'s boundary loop: the loop runs only while
`foundEdges < 2` (the early exit C2 is about). -/
def chordStep (x y : Vec3) (st : ScanSt) (e : Edge) : ScanSt :=
  if 2 ≤ st.found then st else chordStepAll x y st e

/-- The scan's initial state. -/
def chordInit (x y : Vec3) : ScanSt := ⟨none, none, x, y, 0⟩

/-- `chord(x, y)` as a function of the boundary edge list: the value the
source computes when the cache-consult branch is not taken — which, by the
invariant proved for C10, is always (`chordCache[0]` is never non-null). -/
def cpmChord (bd : List Edge) (x y : Vec3) : Edge :=
  let fin := bd.foldl (chordStep x y) (chordInit x y)
  ⟨fin.a, fin.b⟩

/-- Modelled from the spec: the chord endpoints as min/max of `t1` over ALL
hit boundary edges (the same scan with no early exit). -/
def chordScanAll (bd : List Edge) (x y : Vec3) : Edge :=
  let fin := bd.foldl (chordStepAll x y) (chordInit x y)
  ⟨fin.a, fin.b⟩

open Classical in
/-- The number of boundary edges the ray through `x`, `y` hits. -/
def hitCount (x y : Vec3) : List Edge → ℕ
  | [] => 0
  | e :: l => (if isHit x y e then 1 else 0) + hitCount x y l

/-! ## `crossRatio` and `d` (model.ts, lines 742-762) -/

open Classical in
/-- The cross-ratio quotient `(‖y−a‖·‖b−x‖) / (‖x−a‖·‖b−y‖)` in affine `xy`
norms, shared by the ordering variants below.  The result is `Option ℝ`:
`none` when the denominator vanishes, where the source's float quotient is
NaN or ±Infinity rather than a real. -/
def crFormula (a b x y : Vec3) : Option ℝ :=
  let num := normXY (sub3 y a) * normXY (sub3 b x)
  let den := normXY (sub3 x a) * normXY (sub3 b y)
  if den = 0 then none else some (num / den)

open Classical in
/-- `ConvexProjectiveModel.crossRatio(x, y)`: compute the chord, swap its
endpoints when `a.subtract(x).norm() > a.subtract(y).norm()` (full 3-entry
norms), and return the cross-ratio quotient. -/
def crossRatioCPM (bd : List Edge) (x y : Vec3) : Option ℝ :=
  let e := cpmChord bd x y
  if norm3 (sub3 e.v1 y) < norm3 (sub3 e.v1 x) then crFormula e.v2 e.v1 x y
  else crFormula e.v1 e.v2 x y

open Classical in
/-- `ConvexProjectiveModel.d(p, q) = 0.5 * Math.log(crossRatio(p, q))`,
`none` when the cross ratio is not a positive real (the source's result is
then NaN or ±Infinity). -/
def cpmD (bd : List Edge) (x y : Vec3) : Option ℝ :=
  (crossRatioCPM bd x y).bind fun c => if 0 < c then some (0.5 * Real.log c) else none

open Classical in
/-- Modelled from the spec (claim C1's reading): order the chord endpoints
so that `a` is THE ENDPOINT NEARER TO `x` (comparing the two endpoints'
affine distances to `x`), then apply the same cross-ratio formula. -/
def crossRatioNearest (bd : List Edge) (x y : Vec3) : Option ℝ :=
  let e := cpmChord bd x y
  if normXY (sub3 e.v1 x) ≤ normXY (sub3 e.v2 x) then crFormula e.v1 e.v2 x y
  else crFormula e.v2 e.v1 x y

open Classical in
/-- Modelled from the spec (amended reading): order the chord endpoints so
that `a` is the endpoint NEARER TO `x` THAN TO `y` (the endpoint on `x`'s
side of the chord), in affine norms. -/
def crossRatioXSide (bd : List Edge) (x y : Vec3) : Option ℝ :=
  let e := cpmChord bd x y
  if normXY (sub3 e.v1 x) ≤ normXY (sub3 e.v1 y) then crFormula e.v1 e.v2 x y
  else crFormula e.v2 e.v1 x y


/-! ### Projection lemmas for the scan updates -/

theorem updMin_found (t : ℝ) (ip : Vec3) (st : ScanSt) :
    (updMin t ip st).found = st.found := by
  unfold updMin; rcases st with ⟨tMin, _, _, _, _⟩; cases tMin <;> simp; split <;> rfl

theorem updMin_tMax (t : ℝ) (ip : Vec3) (st : ScanSt) :
    (updMin t ip st).tMax = st.tMax := by
  unfold updMin; rcases st with ⟨tMin, _, _, _, _⟩; cases tMin <;> simp; split <;> rfl

theorem updMin_b (t : ℝ) (ip : Vec3) (st : ScanSt) :
    (updMin t ip st).b = st.b := by
  unfold updMin; rcases st with ⟨tMin, _, _, _, _⟩; cases tMin <;> simp; split <;> rfl

theorem updMax_found (t : ℝ) (ip : Vec3) (st : ScanSt) :
    (updMax t ip st).found = st.found := by
  unfold updMax; rcases st with ⟨_, tMax, _, _, _⟩; cases tMax <;> simp; split <;> rfl

theorem updMax_tMin (t : ℝ) (ip : Vec3) (st : ScanSt) :
    (updMax t ip st).tMin = st.tMin := by
  unfold updMax; rcases st with ⟨_, tMax, _, _, _⟩; cases tMax <;> simp; split <;> rfl

theorem updMax_a (t : ℝ) (ip : Vec3) (st : ScanSt) :
    (updMax t ip st).a = st.a := by
  unfold updMax; rcases st with ⟨_, tMax, _, _, _⟩; cases tMax <;> simp; split <;> rfl

/-! ### C5: d(p, p) on the convex-projective model -/

/-- With `x = y` the ray `x.subtract(y)` is the zero vector, so every
`rayCast` denominator vanishes and no boundary edge is ever hit. -/
theorem isHit_self_false (p : Vec3) (e : Edge) : ¬ isHit p p e := by
  intro h
  exact h.1 (by simp [rayDen, sub3])

/-- The degenerate scan: with `x = y` the fold leaves any state unchanged. -/
theorem foldl_chordStep_self (p : Vec3) :
    ∀ (l : List Edge) (st : ScanSt), l.foldl (chordStep p p) st = st := by
  intro l
  induction l with
  | nil => intro st; rfl
  | cons e l ih =>
      intro st
      have hstep : chordStep p p st e = st := by
        simp [chordStep, chordStepAll, if_neg (isHit_self_false p e)]
      simp only [List.foldl, hstep, ih]

/-- `chord(p, p)` returns the fallback endpoints: the query points themselves. -/
theorem cpmChord_self (bd : List Edge) (p : Vec3) : cpmChord bd p p = ⟨p, p⟩ := by
  have h := foldl_chordStep_self p bd (chordInit p p)
  simp only [cpmChord, h]
  rfl

/-- C5 (code_bug, evaluation at the failing input).  For EVERY boundary list
and every point `p`, `d(p, p)` is not a real number at all (`none`): the
chord is degenerate, both cross-ratio factors of the denominator are
`‖p − p‖ = 0`, and the source computes `0.5 * Math.log(0/0) = NaN`, not the
claimed 0. -/
theorem C5_cpm_d_self_NaN (bd : List Edge) (p : Vec3) : cpmD bd p p = none := by
  have hz : sub3 p p = (⟨0, 0, 0⟩ : Vec3) := by simp [sub3]
  have hn : normXY (⟨0, 0, 0⟩ : Vec3) = 0 := by simp [normXY]
  have hcr : crossRatioCPM bd p p = none := by
    simp only [crossRatioCPM, cpmChord_self, hz, lt_irrefl, if_false]
    simp [crFormula, hn, hz]
  simp [cpmD, hcr]

/-! ### C2: the chord scan and its early exit -/

/-- On a hit, the step counts the edge: `foundEdges` grows by one. -/
theorem chordStepAll_found_hit (x y : Vec3) (st : ScanSt) (e : Edge)
    (h : isHit x y e) : (chordStepAll x y st e).found = st.found + 1 := by
  simp only [chordStepAll, if_pos h, updMax_found, updMin_found]

/-- Off a hit, the step is the identity. -/
theorem chordStepAll_miss (x y : Vec3) (st : ScanSt) (e : Edge)
    (h : ¬ isHit x y e) : chordStepAll x y st e = st := by
  simp [chordStepAll, if_neg h]

/-- While the total number of hits keeps `foundEdges` below 2, the guarded
scan (the source's loop runs only while `foundEdges < 2`) agrees with the
unguarded scan over the whole list. -/
theorem foldl_chordStep_eq_all (x y : Vec3) :
    ∀ (l : List Edge) (st : ScanSt), st.found + hitCount x y l ≤ 2 →
      l.foldl (chordStep x y) st = l.foldl (chordStepAll x y) st := by
  intro l
  induction l with
  | nil => intro st _; rfl
  | cons e l ih =>
      intro st hb
      by_cases hh : isHit x y e
      · have hc : hitCount x y (e :: l) = 1 + hitCount x y l := by
          simp [hitCount, if_pos hh]
        rw [hc] at hb
        have hf : ¬ 2 ≤ st.found := by omega
        have hstep : chordStep x y st e = chordStepAll x y st e := by
          simp [chordStep, if_neg hf]
        simp only [List.foldl, hstep]
        exact ih _ (by rw [chordStepAll_found_hit x y st e hh]; omega)
      · have hc : hitCount x y (e :: l) = hitCount x y l := by
          simp [hitCount, if_neg hh]
        rw [hc] at hb
        have hstep : chordStep x y st e = st := by
          simp [chordStep, chordStepAll, if_neg hh]
        simp only [List.foldl, hstep, chordStepAll_miss x y st e hh]
        exact ih st hb

/-- C2 (amended).  Whenever the line through `x` and `y` hits at most two
boundary edges — the generic position for a convex polygon — the early exit
is harmless: `chord` returns the min/max-of-`t1` intersection points over
all hit edges, as the spec describes.  (The counterexample shows the two
results differ when a third edge is hit.) -/
theorem C2_amended (bd : List Edge) (x y : Vec3) (h : hitCount x y bd ≤ 2) :
    cpmChord bd x y = chordScanAll bd x y := by
  simp only [cpmChord, chordScanAll]
  rw [foldl_chordStep_eq_all x y bd (chordInit x y) (by simpa [chordInit] using h)]

/-- A concrete boundary of three vertical segments, all of which cross the
horizontal line through the C2 query points: x = 2 (hit first), x = -1 (hit
second), x = 5 (hit third, with the least `t1`, but never scanned because
the loop exits after two hits). -/
def bdC2 : List Edge :=
  [⟨⟨2, -1, 1⟩, ⟨2, 1, 1⟩⟩, ⟨⟨-1, -1, 1⟩, ⟨-1, 1, 1⟩⟩, ⟨⟨5, -1, 1⟩, ⟨5, 1, 1⟩⟩]

/-- C2 (counterexample).  On `bdC2` with `x = (0,0,1)`, `y = (1,0,1)` all
three edges are hit, the scan stops after the first two, and `chord`
returns `((2,0),(-1,0))`; the claim's "min and max of t1 over ALL hit
boundary edges" (the full scan) gives `((5,0),(-1,0))` instead — the edge
at `x = 5` has `t1 = -5 < -2` and is never considered. -/
theorem C2_counterexample :
    cpmChord bdC2 ⟨0, 0, 1⟩ ⟨1, 0, 1⟩ = ⟨⟨2, 0, 1⟩, ⟨-1, 0, 1⟩⟩ ∧
    chordScanAll bdC2 ⟨0, 0, 1⟩ ⟨1, 0, 1⟩ = ⟨⟨5, 0, 1⟩, ⟨-1, 0, 1⟩⟩ ∧
    hitCount ⟨0, 0, 1⟩ ⟨1, 0, 1⟩ bdC2 = 3 ∧
    (⟨⟨2, 0, 1⟩, ⟨-1, 0, 1⟩⟩ : Edge) ≠ ⟨⟨5, 0, 1⟩, ⟨-1, 0, 1⟩⟩ := by
  refine ⟨?_, ?_, ?_, ?_⟩
  · norm_num [cpmChord, bdC2, chordInit, chordStep, chordStepAll, updMin, updMax,
      isHit, rayDen, rayT1, rayT2, rayIP, sub3]
  · norm_num [chordScanAll, bdC2, chordInit, chordStepAll, updMin, updMax,
      isHit, rayDen, rayT1, rayT2, rayIP, sub3]
  · norm_num [hitCount, bdC2, isHit, rayDen, rayT2, sub3]
  · intro h
    have := congrArg (fun e => e.v1.x) h
    norm_num at this

/-- A concrete triangular boundary with vertices (2,0), (-2,2), (-2,-2),
used as the convex domain of the witnesses below. -/
def bdTri : List Edge :=
  [⟨⟨2, 0, 1⟩, ⟨-2, 2, 1⟩⟩, ⟨⟨-2, 2, 1⟩, ⟨-2, -2, 1⟩⟩, ⟨⟨-2, -2, 1⟩, ⟨2, 0, 1⟩⟩]

/-- Witness for C2_amended: on `bdTri` the line through `(0, 1/4)` and
`(1, 1/4)` hits exactly two edges, and the early-exit scan agrees with the
full scan. -/
theorem C2_amended_witness :
    hitCount ⟨0, 1/4, 1⟩ ⟨1, 1/4, 1⟩ bdTri ≤ 2 ∧
    cpmChord bdTri ⟨0, 1/4, 1⟩ ⟨1, 1/4, 1⟩ = chordScanAll bdTri ⟨0, 1/4, 1⟩ ⟨1, 1/4, 1⟩ := by
  have hc : hitCount ⟨0, 1/4, 1⟩ ⟨1, 1/4, 1⟩ bdTri ≤ 2 := by
    norm_num [hitCount, bdTri, isHit, rayDen, rayT2, sub3]
  exact ⟨hc, C2_amended bdTri ⟨0, 1/4, 1⟩ ⟨1, 1/4, 1⟩ hc⟩

/-! ### C1: cross-ratio endpoint ordering and the metric formula -/

theorem updMin_a_cases (t : ℝ) (ip : Vec3) (st : ScanSt) :
    (updMin t ip st).a = st.a ∨ (updMin t ip st).a = ip := by
  unfold updMin
  rcases st with ⟨tMin, _, _, _, _⟩
  cases tMin
  · right; rfl
  · simp only
    split
    · right; rfl
    · left; rfl

theorem updMax_b_cases (t : ℝ) (ip : Vec3) (st : ScanSt) :
    (updMax t ip st).b = st.b ∨ (updMax t ip st).b = ip := by
  unfold updMax
  rcases st with ⟨_, tMax, _, _, _⟩
  cases tMax
  · right; rfl
  · simp only
    split
    · right; rfl
    · left; rfl

/-- Every endpoint the scan can store has homogeneous coordinate 1: the
initial fallbacks are the query points and every intersection point is
built with third entry 1. -/
theorem foldl_chordStep_z (x y : Vec3) (_hx : x.z = 1) (_hy : y.z = 1) :
    ∀ (l : List Edge) (st : ScanSt), st.a.z = 1 → st.b.z = 1 →
      (l.foldl (chordStep x y) st).a.z = 1 ∧ (l.foldl (chordStep x y) st).b.z = 1 := by
  intro l
  induction l with
  | nil => intro st ha hb; exact ⟨ha, hb⟩
  | cons e l ih =>
      intro st ha hb
      have hstep : (chordStep x y st e).a.z = 1 ∧ (chordStep x y st e).b.z = 1 := by
        by_cases hf : 2 ≤ st.found
        · simp only [chordStep, if_pos hf]; exact ⟨ha, hb⟩
        · simp only [chordStep, if_neg hf]
          by_cases hh : isHit x y e
          · simp only [chordStepAll, if_pos hh]
            constructor
            · rw [updMax_a]
              rcases updMin_a_cases (rayT1 x (sub3 x y) e.v1 (sub3 e.v2 e.v1))
                (rayIP x (sub3 x y) e.v1 (sub3 e.v2 e.v1)) st with h | h
              · rw [h]; exact ha
              · rw [h]; rfl
            · rcases updMax_b_cases (rayT1 x (sub3 x y) e.v1 (sub3 e.v2 e.v1))
                (rayIP x (sub3 x y) e.v1 (sub3 e.v2 e.v1))
                (updMin (rayT1 x (sub3 x y) e.v1 (sub3 e.v2 e.v1))
                  (rayIP x (sub3 x y) e.v1 (sub3 e.v2 e.v1)) st) with h | h
              · rw [h, updMin_b]; exact hb
              · rw [h]; rfl
          · rw [chordStepAll_miss x y st e hh]; exact ⟨ha, hb⟩
      exact ih (chordStep x y st e) hstep.1 hstep.2

/-- For points of the affine chart, the chord endpoints stay in the chart. -/
theorem cpmChord_z (bd : List Edge) (x y : Vec3) (hx : x.z = 1) (hy : y.z = 1) :
    (cpmChord bd x y).v1.z = 1 ∧ (cpmChord bd x y).v2.z = 1 := by
  have h := foldl_chordStep_z x y hx hy bd (chordInit x y) hx hy
  simpa [cpmChord] using h

/-- On a vector with vanishing third entry the full and affine norms agree. -/
theorem norm3_xy (u : Vec3) (h : u.z = 0) : norm3 u = normXY u := by
  simp [norm3, normXY, dot3, h]

/-- C1 (amended).  For chart points (`z = 1`, where the source's 3-entry
norms in the swap test agree with affine norms): `crossRatio(x, y)` computes
`chord(x, y)` and orders its endpoints so that `a` is the endpoint NEARER TO
`x` THAN TO `y` (the endpoint on `x`'s side) — not "the endpoint nearer to
x" — then returns `(‖y−a‖·‖b−x‖)/(‖x−a‖·‖b−y‖)` in affine norms; and
`d(x, y) = 0.5 · ln(crossRatio(x, y))` whenever the cross ratio is a
positive real. -/
theorem C1_amended (bd : List Edge) (x y : Vec3) (hx : x.z = 1) (hy : y.z = 1) :
    crossRatioCPM bd x y = crossRatioXSide bd x y ∧
    (∀ c : ℝ, crossRatioCPM bd x y = some c → 0 < c →
      cpmD bd x y = some (0.5 * Real.log c)) := by
  constructor
  · have hz := cpmChord_z bd x y hx hy
    have h1x : norm3 (sub3 (cpmChord bd x y).v1 x) = normXY (sub3 (cpmChord bd x y).v1 x) :=
      norm3_xy _ (by simp [sub3, hz.1, hx])
    have h1y : norm3 (sub3 (cpmChord bd x y).v1 y) = normXY (sub3 (cpmChord bd x y).v1 y) :=
      norm3_xy _ (by simp [sub3, hz.1, hy])
    by_cases hc : normXY (sub3 (cpmChord bd x y).v1 x) ≤ normXY (sub3 (cpmChord bd x y).v1 y)
    · have hlt : ¬ norm3 (sub3 (cpmChord bd x y).v1 y) < norm3 (sub3 (cpmChord bd x y).v1 x) := by
        rw [h1x, h1y]; exact not_lt.mpr hc
      simp only [crossRatioCPM, crossRatioXSide, if_neg hlt, if_pos hc]
    · have hlt : norm3 (sub3 (cpmChord bd x y).v1 y) < norm3 (sub3 (cpmChord bd x y).v1 x) := by
        rw [h1x, h1y]; exact not_le.mp hc
      simp only [crossRatioCPM, crossRatioXSide, if_pos hlt, if_neg hc]
  · intro c hc hpos
    simp only [cpmD, hc]
    rw [Option.some_bind, if_pos hpos]

/-- Closed-form evaluation of a 3-entry norm. -/
theorem norm3_eval (u : Vec3) (c : ℝ) (h0 : 0 ≤ c) (h : dot3 u u = c * c) :
    norm3 u = c := by
  rw [norm3, h]
  exact Real.sqrt_mul_self h0

/-- Closed-form evaluation of an affine norm. -/
theorem normXY_eval (u : Vec3) (c : ℝ) (h0 : 0 ≤ c) (h : u.x * u.x + u.y * u.y = c * c) :
    normXY u = c := by
  rw [normXY, h]
  exact Real.sqrt_mul_self h0

/-- The chord of `bdTri` through `(1, 0)` and `(3/2, 0)`: endpoints
`(2, 0)` (scanned first, `t1 = -2`) and `(-2, 0)` (`t1 = 6`). -/
theorem cpmChord_bdTri_eval :
    cpmChord bdTri ⟨1, 0, 1⟩ ⟨3/2, 0, 1⟩ = ⟨⟨2, 0, 1⟩, ⟨-2, 0, 1⟩⟩ := by
  norm_num [cpmChord, bdTri, chordInit, chordStep, chordStepAll, updMin, updMax,
    isHit, rayDen, rayT1, rayT2, rayIP, sub3]

/-- `crossRatio` of the source at the C1 query points: the swap test fires
(`‖a−x‖ = 1 > ‖a−y‖ = 1/2`), the pair becomes `((-2,0), (2,0))`, and the
value is `(7/2 · 1) / (3 · 1/2) = 7/3`. -/
theorem crossRatioCPM_bdTri_eval :
    crossRatioCPM bdTri ⟨1, 0, 1⟩ ⟨3/2, 0, 1⟩ = some (7/3) := by
  have c1 : norm3 (sub3 (⟨2, 0, 1⟩ : Vec3) ⟨3/2, 0, 1⟩) = 1/2 :=
    norm3_eval _ _ (by norm_num) (by norm_num [sub3, dot3])
  have c2 : norm3 (sub3 (⟨2, 0, 1⟩ : Vec3) ⟨1, 0, 1⟩) = 1 :=
    norm3_eval _ _ (by norm_num) (by norm_num [sub3, dot3])
  have n1 : normXY (sub3 (⟨3/2, 0, 1⟩ : Vec3) ⟨-2, 0, 1⟩) = 7/2 :=
    normXY_eval _ _ (by norm_num) (by norm_num [sub3])
  have n2 : normXY (sub3 (⟨2, 0, 1⟩ : Vec3) ⟨1, 0, 1⟩) = 1 :=
    normXY_eval _ _ (by norm_num) (by norm_num [sub3])
  have n3 : normXY (sub3 (⟨1, 0, 1⟩ : Vec3) ⟨-2, 0, 1⟩) = 3 :=
    normXY_eval _ _ (by norm_num) (by norm_num [sub3])
  have n4 : normXY (sub3 (⟨2, 0, 1⟩ : Vec3) ⟨3/2, 0, 1⟩) = 1/2 :=
    normXY_eval _ _ (by norm_num) (by norm_num [sub3])
  have hsw : norm3 (sub3 (⟨2, 0, 1⟩ : Vec3) ⟨3/2, 0, 1⟩) <
      norm3 (sub3 (⟨2, 0, 1⟩ : Vec3) ⟨1, 0, 1⟩) := by
    rw [c1, c2]; norm_num
  simp only [crossRatioCPM, cpmChord_bdTri_eval, crFormula]
  rw [if_pos hsw]
  simp only [n1, n2, n3, n4]
  rw [if_neg (by norm_num : ¬ ((3 : ℝ) * (1/2) = 0))]
  norm_num

/-- The spec's "a is the one nearer to x" ordering at the same input keeps
the pair `((2,0), (-2,0))` (since `‖(2,0)−x‖ = 1 < 3 = ‖(-2,0)−x‖`) and
yields `(1/2 · 3) / (1 · 7/2) = 3/7`. -/
theorem crossRatioNearest_bdTri_eval :
    crossRatioNearest bdTri ⟨1, 0, 1⟩ ⟨3/2, 0, 1⟩ = some (3/7) := by
  have m1 : normXY (sub3 (⟨2, 0, 1⟩ : Vec3) ⟨1, 0, 1⟩) = 1 :=
    normXY_eval _ _ (by norm_num) (by norm_num [sub3])
  have m2 : normXY (sub3 (⟨-2, 0, 1⟩ : Vec3) ⟨1, 0, 1⟩) = 3 :=
    normXY_eval _ _ (by norm_num) (by norm_num [sub3])
  have n1 : normXY (sub3 (⟨3/2, 0, 1⟩ : Vec3) ⟨2, 0, 1⟩) = 1/2 :=
    normXY_eval _ _ (by norm_num) (by norm_num [sub3])
  have n2 : normXY (sub3 (⟨-2, 0, 1⟩ : Vec3) ⟨3/2, 0, 1⟩) = 7/2 :=
    normXY_eval _ _ (by norm_num) (by norm_num [sub3])
  have n3 : normXY (sub3 (⟨1, 0, 1⟩ : Vec3) ⟨2, 0, 1⟩) = 1 :=
    normXY_eval _ _ (by norm_num) (by norm_num [sub3])
  have hsw : normXY (sub3 (⟨2, 0, 1⟩ : Vec3) ⟨1, 0, 1⟩) ≤
      normXY (sub3 (⟨-2, 0, 1⟩ : Vec3) ⟨1, 0, 1⟩) := by
    rw [m1, m2]; norm_num
  simp only [crossRatioNearest, cpmChord_bdTri_eval, crFormula]
  rw [if_pos hsw]
  simp only [n1, n2, n3, m2]
  rw [if_neg (by norm_num : ¬ ((1 : ℝ) * (7/2) = 0))]
  norm_num

/-- C1 (counterexample).  At the strictly interior chart points
`x = (1, 0)`, `y = (3/2, 0)` of the convex domain `bdTri`, the endpoint of
`chord(x, y)` nearest to `x` is `(2, 0)`, yet the source's ordering puts
`a = (-2, 0)` (the endpoint on `x`'s side): the source returns `7/3` where
the claim's "a is the one nearer to x" ordering returns `3/7`. -/
theorem C1_counterexample :
    crossRatioCPM bdTri ⟨1, 0, 1⟩ ⟨3/2, 0, 1⟩ = some (7/3) ∧
    crossRatioNearest bdTri ⟨1, 0, 1⟩ ⟨3/2, 0, 1⟩ = some (3/7) ∧
    crossRatioCPM bdTri ⟨1, 0, 1⟩ ⟨3/2, 0, 1⟩ ≠
      crossRatioNearest bdTri ⟨1, 0, 1⟩ ⟨3/2, 0, 1⟩ := by
  refine ⟨crossRatioCPM_bdTri_eval, crossRatioNearest_bdTri_eval, ?_⟩
  rw [crossRatioCPM_bdTri_eval, crossRatioNearest_bdTri_eval]
  norm_num

/-- Witness for C1_amended at the `bdTri` query points: both hypotheses are
chart membership, and the conclusion instantiates to the computed value. -/
theorem C1_amended_witness :
    crossRatioCPM bdTri ⟨1, 0, 1⟩ ⟨3/2, 0, 1⟩ = crossRatioXSide bdTri ⟨1, 0, 1⟩ ⟨3/2, 0, 1⟩ ∧
    cpmD bdTri ⟨1, 0, 1⟩ ⟨3/2, 0, 1⟩ = some (0.5 * Real.log (7/3)) := by
  have h := C1_amended bdTri ⟨1, 0, 1⟩ ⟨3/2, 0, 1⟩ rfl rfl
  exact ⟨h.1, h.2 (7/3) crossRatioCPM_bdTri_eval (by norm_num)⟩

/-! ### C4: metric symmetry

Poincaré first, then the convex-projective chord scan's exact behaviour
under swapping the query points, then the Klein model. -/

/-- The mathematical value of JS `Math.acosh` on its domain:
`log (t + sqrt (t² − 1))`. -/
def acoshJS (t : ℝ) : ℝ := Real.log (t + Real.sqrt (t ^ 2 - 1))

/-- `PoincareModel.d` (model.ts, lines 220-226): the operands are truncated
to their `x`, `y` entries and fed to
`acosh(1 + 2‖p−q‖² / ((1−‖p‖²)(1−‖q‖²)))`. -/
def poincareD (p q : Vec3) : ℝ :=
  acoshJS (1 + (2 * ((p.x - q.x) * (p.x - q.x) + (p.y - q.y) * (p.y - q.y))) /
    ((1 - (p.x * p.x + p.y * p.y)) * (1 - (q.x * q.x + q.y * q.y))))

/-- Symmetry of the Poincaré distance, with no side condition: the argument
of `acosh` is literally symmetric in `p` and `q`. -/
theorem poincareD_symm (p q : Vec3) : poincareD p q = poincareD q p := by
  unfold poincareD
  congr 1
  ring

/-- A fraction of negated numerator and denominator, under the outer minus
of the source's formulas (valid also at a vanishing denominator). -/
theorem neg_frac_swap (a b c d : ℝ) (h1 : a = -c) (h2 : b = -d) :
    -(a / b) = -(c / d) := by
  rw [h1, h2, neg_div_neg_eq]

theorem rayDen_swap (x y w : Vec3) : rayDen (sub3 y x) w = -(rayDen (sub3 x y) w) := by
  simp only [rayDen, sub3]
  ring

/-- The edge parameter does not depend on the direction of the query:
`t2` of the swapped call equals `t2` of the original call, identically. -/
theorem rayT2_swap (x y q w : Vec3) :
    rayT2 y (sub3 y x) q w = rayT2 x (sub3 x y) q w := by
  simp only [rayT2, sub3]
  exact neg_frac_swap _ _ _ _ (by ring) (by ring)

/-- The intersection point does not depend on the direction of the query. -/
theorem rayIP_swap (x y q w : Vec3) :
    rayIP y (sub3 y x) q w = rayIP x (sub3 x y) q w := by
  simp only [rayIP, sub3]
  refine Vec3.ext ?_ ?_ rfl
  · exact neg_frac_swap _ _ _ _ (by ring) (by ring)
  · exact neg_frac_swap _ _ _ _ (by ring) (by ring)

/-- Swapping the query points reparametrizes the ray: `t1` becomes
`-t1 - 1` (the strictly order-reversing map exchanging min and max). -/
theorem rayT1_swap (x y q w : Vec3) (h : rayDen (sub3 x y) w ≠ 0) :
    rayT1 y (sub3 y x) q w = -(rayT1 x (sub3 x y) q w) - 1 := by
  have hA : (x.y - y.y) * w.x - (x.x - y.x) * w.y ≠ 0 := by
    simpa [rayDen, sub3] using h
  have h1 : -((y.y - x.y) * w.x) + (y.x - x.x) * w.y ≠ 0 := by
    intro h0; exact hA (by linarith)
  have h2 : -((x.y - y.y) * w.x) + (x.x - y.x) * w.y ≠ 0 := by
    intro h0; exact hA (by linarith)
  simp only [rayT1, sub3]
  field_simp
  ring

/-- The hit test is symmetric in the two query points. -/
theorem isHit_swap (x y : Vec3) (e : Edge) : isHit y x e ↔ isHit x y e := by
  unfold isHit
  rw [rayDen_swap, rayT2_swap]
  simp [neg_ne_zero]

/-- The correspondence between the state of the scan for `(x, y)` and the
state of the scan for `(y, x)`: the roles of min and max (and of `a` and
`b`) exchange under the reparametrization `t ↦ -t - 1`. -/
def ScanRel (st st2 : ScanSt) : Prop :=
  st2.found = st.found ∧ st2.a = st.b ∧ st2.b = st.a ∧
  st2.tMin = st.tMax.map (fun s => -s - 1) ∧ st2.tMax = st.tMin.map (fun s => -s - 1)

theorem updPair_swap (t : ℝ) (ip : Vec3) (st : ScanSt) :
    ScanRel (updMax t ip (updMin t ip st))
      (updMax (-t - 1) ip (updMin (-t - 1) ip
        ⟨st.tMax.map (fun s => -s - 1), st.tMin.map (fun s => -s - 1),
          st.b, st.a, st.found⟩)) := by
  rcases st with ⟨mn, mx, a, b, f⟩
  simp only
  cases mn with
  | none =>
      cases mx with
      | none =>
          simp [updMin, updMax, ScanRel]
      | some M =>
          by_cases hM : M < t
          · have hM2 : -t - 1 < -M - 1 := by linarith
            simp [updMin, updMax, ScanRel, if_pos hM, if_pos hM2]
          · have hM2 : ¬ (-t - 1 < -M - 1) := by intro h0; exact hM (by linarith)
            simp [updMin, updMax, ScanRel, if_neg hM, if_neg hM2]
  | some m =>
      cases mx with
      | none =>
          by_cases hm : t < m
          · have hm2 : -m - 1 < -t - 1 := by linarith
            simp [updMin, updMax, ScanRel, if_pos hm, if_pos hm2]
          · have hm2 : ¬ (-m - 1 < -t - 1) := by intro h0; exact hm (by linarith)
            simp [updMin, updMax, ScanRel, if_neg hm, if_neg hm2]
      | some M =>
          by_cases hm : t < m
          · have hm2 : -m - 1 < -t - 1 := by linarith
            by_cases hM : M < t
            · have hM2 : -t - 1 < -M - 1 := by linarith
              simp [updMin, updMax, ScanRel, if_pos hm, if_pos hm2, if_pos hM, if_pos hM2]
            · have hM2 : ¬ (-t - 1 < -M - 1) := by intro h0; exact hM (by linarith)
              simp [updMin, updMax, ScanRel, if_pos hm, if_pos hm2, if_neg hM, if_neg hM2]
          · have hm2 : ¬ (-m - 1 < -t - 1) := by intro h0; exact hm (by linarith)
            by_cases hM : M < t
            · have hM2 : -t - 1 < -M - 1 := by linarith
              simp [updMin, updMax, ScanRel, if_neg hm, if_neg hm2, if_pos hM, if_pos hM2]
            · have hM2 : ¬ (-t - 1 < -M - 1) := by intro h0; exact hM (by linarith)
              simp [updMin, updMax, ScanRel, if_neg hm, if_neg hm2, if_neg hM, if_neg hM2]

theorem chordStepAll_swap (x y : Vec3) (e : Edge) (st st2 : ScanSt)
    (hR : ScanRel st st2) :
    ScanRel (chordStepAll x y st e) (chordStepAll y x st2 e) := by
  obtain ⟨hf, ha, hb, hmin, hmax⟩ := hR
  by_cases hh : isHit x y e
  · have hh2 : isHit y x e := (isHit_swap x y e).mpr hh
    rw [chordStepAll, if_pos hh, chordStepAll, if_pos hh2]
    have ht1 : rayT1 y (sub3 y x) e.v1 (sub3 e.v2 e.v1) =
        -(rayT1 x (sub3 x y) e.v1 (sub3 e.v2 e.v1)) - 1 :=
      rayT1_swap x y e.v1 (sub3 e.v2 e.v1) hh.1
    have hip : rayIP y (sub3 y x) e.v1 (sub3 e.v2 e.v1) =
        rayIP x (sub3 x y) e.v1 (sub3 e.v2 e.v1) :=
      rayIP_swap x y e.v1 (sub3 e.v2 e.v1)
    rw [ht1, hip]
    rcases st2 with ⟨mn2, mx2, a3, b3, f2⟩
    simp only at hf ha hb hmin hmax
    subst hf; subst ha; subst hb; subst hmin; subst hmax
    have h := updPair_swap (rayT1 x (sub3 x y) e.v1 (sub3 e.v2 e.v1))
      (rayIP x (sub3 x y) e.v1 (sub3 e.v2 e.v1)) st
    obtain ⟨h1, h2, h3, h4, h5⟩ := h
    exact ⟨by simp [h1], by simp [h2], by simp [h3], by simp [h4], by simp [h5]⟩
  · have hh2 : ¬ isHit y x e := fun h => hh ((isHit_swap x y e).mp h)
    rw [chordStepAll_miss x y st e hh, chordStepAll_miss y x st2 e hh2]
    exact ⟨hf, ha, hb, hmin, hmax⟩

theorem chordStep_swap (x y : Vec3) (e : Edge) (st st2 : ScanSt)
    (hR : ScanRel st st2) :
    ScanRel (chordStep x y st e) (chordStep y x st2 e) := by
  by_cases hg : 2 ≤ st.found
  · have hg2 : 2 ≤ st2.found := by rw [hR.1]; exact hg
    rw [chordStep, if_pos hg, chordStep, if_pos hg2]
    exact hR
  · have hg2 : ¬ 2 ≤ st2.found := by rw [hR.1]; exact hg
    rw [chordStep, if_neg hg, chordStep, if_neg hg2]
    exact chordStepAll_swap x y e st st2 hR

theorem foldl_chordStep_swap (x y : Vec3) :
    ∀ (l : List Edge) (st st2 : ScanSt), ScanRel st st2 →
      ScanRel (l.foldl (chordStep x y) st) (l.foldl (chordStep y x) st2) := by
  intro l
  induction l with
  | nil => intro st st2 h; exact h
  | cons e l ih =>
      intro st st2 h
      exact ih _ _ (chordStep_swap x y e st st2 h)

/-- Swapping the query points swaps the chord's endpoints, exactly. -/
theorem cpmChord_swap (bd : List Edge) (x y : Vec3) :
    cpmChord bd y x = ⟨(cpmChord bd x y).v2, (cpmChord bd x y).v1⟩ := by
  have h := foldl_chordStep_swap x y bd (chordInit x y) (chordInit y x)
    ⟨rfl, rfl, rfl, rfl, rfl⟩
  simp only [cpmChord]
  exact congrArg₂ Edge.mk h.2.1 h.2.2.1

/-- `‖u − v‖ = ‖v − u‖` for the affine norm. -/
theorem normXY_sub_comm (u v : Vec3) : normXY (sub3 u v) = normXY (sub3 v u) := by
  simp only [normXY, sub3]
  congr 1
  ring

/-- The cross-ratio quotient is invariant under exchanging both the
endpoint pair and the query pair. -/
theorem crFormula_swap (a b x y : Vec3) : crFormula a b x y = crFormula b a y x := by
  simp only [crFormula]
  rw [normXY_sub_comm x b, normXY_sub_comm a y, normXY_sub_comm y b, normXY_sub_comm a x,
    mul_comm (normXY (sub3 b y)) (normXY (sub3 x a)),
    mul_comm (normXY (sub3 b x)) (normXY (sub3 y a))]

/-- The non-degeneracy condition under which the source's endpoint-swap
tests of `crossRatio(x, y)` and `crossRatio(y, x)` make opposite choices:
the chord endpoint nearer to `x` than to `y` on one side is mirrored by the
other endpoint being nearer to `y` than to `x`.  This holds whenever `x ≠ y`
are strictly interior, so that the endpoints and the query points are in
the collinear order `a, x, y, b`. -/
def cpmSymmHyp (bd : List Edge) (x y : Vec3) : Prop :=
  (norm3 (sub3 (cpmChord bd x y).v1 y) < norm3 (sub3 (cpmChord bd x y).v1 x) ↔
   norm3 (sub3 (cpmChord bd x y).v2 x) < norm3 (sub3 (cpmChord bd x y).v2 y))

/-- Symmetry of the convex-projective cross ratio under the non-degeneracy
condition. -/
theorem crossRatioCPM_symm (bd : List Edge) (x y : Vec3) (h : cpmSymmHyp bd x y) :
    crossRatioCPM bd x y = crossRatioCPM bd y x := by
  have hch := cpmChord_swap bd x y
  by_cases hc : norm3 (sub3 (cpmChord bd x y).v1 y) < norm3 (sub3 (cpmChord bd x y).v1 x)
  · have hc2 : norm3 (sub3 (cpmChord bd x y).v2 x) < norm3 (sub3 (cpmChord bd x y).v2 y) :=
      h.mp hc
    simp only [crossRatioCPM, hch, if_pos hc, if_pos hc2]
    exact crFormula_swap _ _ x y
  · have hc2 : ¬ norm3 (sub3 (cpmChord bd x y).v2 x) < norm3 (sub3 (cpmChord bd x y).v2 y) :=
      fun hx => hc (h.mpr hx)
    simp only [crossRatioCPM, hch, if_neg hc, if_neg hc2]
    exact crFormula_swap _ _ x y

/-- Symmetry of the convex-projective Hilbert distance under the same
condition. -/
theorem cpmD_symm (bd : List Edge) (x y : Vec3) (h : cpmSymmHyp bd x y) :
    cpmD bd x y = cpmD bd y x := by
  simp only [cpmD, crossRatioCPM_symm bd x y h]

/-! ### The Klein model (model.ts, lines 279-349)

Klein points are 2-entry vectors; `chord` is the closed-form intersection
of the line through `p`, `q` with the unit circle, transliterated from the
source including its degenerate-case branch `(0,-1), (0,1)`. -/

@[ext]
structure Vec2 where
  x : ℝ
  y : ℝ

/-- `Vector.subtract` on 2-entry vectors. -/
def sub2 (u v : Vec2) : Vec2 := ⟨u.x - v.x, u.y - v.y⟩

/-- `Vector.norm` on 2-entry vectors. -/
def norm2 (u : Vec2) : ℝ := Real.sqrt (u.x * u.x + u.y * u.y)

/-- The radicand shared by all eight chord formulas of `KleinModel.chord`. -/
def kS (p q : Vec2) : ℝ :=
  -((p.x - q.x) ^ 2 * (q.x ^ 2 * (-1 + p.y ^ 2) - (p.y - q.y) ^ 2 -
    2 * p.x * q.x * (-1 + p.y * q.y) + p.x ^ 2 * (-1 + q.y ^ 2)))

/-- `numera1` of `KleinModel.chord`. -/
def kNumA1 (p q : Vec2) : ℝ :=
  -(-(q.x * p.y ^ 2) + p.x * p.y * q.y + q.x * p.y * q.y - p.x * q.y ^ 2 +
    Real.sqrt (kS p q))

/-- `denoma1` of `KleinModel.chord`. -/
def kDenA1 (p q : Vec2) : ℝ :=
  p.x ^ 2 - 2 * p.x * q.x + q.x ^ 2 + (p.y - q.y) ^ 2

/-- `numera2` of `KleinModel.chord`. -/
def kNumA2 (p q : Vec2) : ℝ :=
  -(q.x ^ 3 * p.y) + p.x ^ 3 * q.y + p.x * q.x ^ 2 * (2 * p.y + q.y) -
    p.x ^ 2 * q.x * (p.y + 2 * q.y) + (-p.y + q.y) * Real.sqrt (kS p q)

/-- `denoma2` of `KleinModel.chord`. -/
def kDenA2 (p q : Vec2) : ℝ :=
  (p.x - q.x) * (p.x ^ 2 - 2 * p.x * q.x + q.x ^ 2 + (p.y - q.y) ^ 2)

/-- `numb1` of `KleinModel.chord`. -/
def kNumB1 (p q : Vec2) : ℝ :=
  q.x * p.y ^ 2 - p.x * p.y * q.y - q.x * p.y * q.y + p.x * q.y ^ 2 +
    Real.sqrt (kS p q)

/-- `denomb1` of `KleinModel.chord`. -/
def kDenB1 (p q : Vec2) : ℝ :=
  p.x ^ 2 - 2 * p.x * q.x + q.x ^ 2 + (p.y - q.y) ^ 2

/-- `numb2` of `KleinModel.chord`. -/
def kNumB2 (p q : Vec2) : ℝ :=
  -(q.x ^ 3 * p.y) + p.x ^ 3 * q.y + p.x * q.x ^ 2 * (2 * p.y + q.y) -
    p.x ^ 2 * q.x * (p.y + 2 * q.y) + (p.y - q.y) * Real.sqrt (kS p q)

/-- `denomb2` of `KleinModel.chord`. -/
def kDenB2 (p q : Vec2) : ℝ :=
  (p.x - q.x) * (p.x ^ 2 - 2 * p.x * q.x + q.x ^ 2 + (p.y - q.y) ^ 2)

/-- The source's `0/0` guard: some numerator/denominator pair vanishes
together (then the chord is hard-coded to `(0,-1), (0,1)`). -/
def kDegenerate (p q : Vec2) : Prop :=
  (kNumA1 p q = 0 ∧ kDenA1 p q = 0) ∨ (kNumA2 p q = 0 ∧ kDenA2 p q = 0) ∨
  (kNumB1 p q = 0 ∧ kDenB1 p q = 0) ∨ (kNumB2 p q = 0 ∧ kDenB2 p q = 0)

open Classical in
/-- `KleinModel.chord(p, q)`, transliterated. -/
def kChord (p q : Vec2) : Vec2 × Vec2 :=
  if kDegenerate p q then (⟨0, -1⟩, ⟨0, 1⟩)
  else (⟨kNumA1 p q / kDenA1 p q, kNumA2 p q / kDenA2 p q⟩,
        ⟨kNumB1 p q / kDenB1 p q, kNumB2 p q / kDenB2 p q⟩)

/-- The Klein cross-ratio quotient
`(‖q−a‖·‖b−p‖) / (‖p−a‖·‖b−q‖)` (2-entry norms). -/
def krForm (a b p q : Vec2) : ℝ :=
  (norm2 (sub2 q a) * norm2 (sub2 b p)) / (norm2 (sub2 p a) * norm2 (sub2 b q))

open Classical in
/-- `KleinModel.crossRatio(p, q)`: chord, endpoint swap when
`a.subtract(p).norm() > a.subtract(q).norm()`, then the quotient. -/
def kCrossRatio (p q : Vec2) : ℝ :=
  let ab := kChord p q
  if norm2 (sub2 ab.1 q) < norm2 (sub2 ab.1 p) then krForm ab.2 ab.1 p q
  else krForm ab.1 ab.2 p q

/-- `KleinModel.d(p, q) = 0.5 * Math.log(crossRatio(p, q))`. -/
def kleinD (p q : Vec2) : ℝ := 0.5 * Real.log (kCrossRatio p q)

theorem kS_symm (p q : Vec2) : kS q p = kS p q := by
  unfold kS; ring

theorem kNumA1_symm (p q : Vec2) : kNumA1 q p = kNumA1 p q := by
  unfold kNumA1; rw [kS_symm]; ring

theorem kDenA1_symm (p q : Vec2) : kDenA1 q p = kDenA1 p q := by
  unfold kDenA1; ring

theorem kNumA2_anti (p q : Vec2) : kNumA2 q p = -(kNumA2 p q) := by
  unfold kNumA2; rw [kS_symm]; ring

theorem kDenA2_anti (p q : Vec2) : kDenA2 q p = -(kDenA2 p q) := by
  unfold kDenA2; ring

theorem kNumB1_symm (p q : Vec2) : kNumB1 q p = kNumB1 p q := by
  unfold kNumB1; rw [kS_symm]; ring

theorem kDenB1_symm (p q : Vec2) : kDenB1 q p = kDenB1 p q := by
  unfold kDenB1; ring

theorem kNumB2_anti (p q : Vec2) : kNumB2 q p = -(kNumB2 p q) := by
  unfold kNumB2; rw [kS_symm]; ring

theorem kDenB2_anti (p q : Vec2) : kDenB2 q p = -(kDenB2 p q) := by
  unfold kDenB2; ring

theorem kDegenerate_symm (p q : Vec2) : kDegenerate q p ↔ kDegenerate p q := by
  unfold kDegenerate
  rw [kNumA1_symm, kDenA1_symm, kNumA2_anti, kDenA2_anti, kNumB1_symm, kDenB1_symm,
    kNumB2_anti, kDenB2_anti]
  simp [neg_eq_zero]

/-- The Klein chord is literally symmetric in its two arguments: both the
degeneracy test and the intersection coordinates are invariant (the second
coordinates are quotients of two expressions that each change sign). -/
theorem kChord_symm (p q : Vec2) : kChord q p = kChord p q := by
  unfold kChord
  by_cases hd : kDegenerate p q
  · rw [if_pos ((kDegenerate_symm p q).mpr hd), if_pos hd]
  · rw [if_neg (fun h => hd ((kDegenerate_symm p q).mp h)), if_neg hd]
    rw [kNumA1_symm, kDenA1_symm, kNumA2_anti, kDenA2_anti, kNumB1_symm,
      kDenB1_symm, kNumB2_anti, kDenB2_anti, neg_div_neg_eq, neg_div_neg_eq]

theorem norm2_sub_comm (u v : Vec2) : norm2 (sub2 u v) = norm2 (sub2 v u) := by
  simp only [norm2, sub2]
  congr 1
  ring

/-- Exchanging the query points and the endpoint pair together leaves the
Klein quotient unchanged. -/
theorem krForm_swap (a b p q : Vec2) : krForm a b q p = krForm b a p q := by
  unfold krForm
  rw [norm2_sub_comm p a, norm2_sub_comm b q, norm2_sub_comm q a, norm2_sub_comm b p,
    mul_comm (norm2 (sub2 a p)) (norm2 (sub2 q b)),
    mul_comm (norm2 (sub2 a q)) (norm2 (sub2 p b))]

/-- The non-degeneracy condition for Klein symmetry: if both chord
endpoints happen to be equidistant from `p` and `q` on the `a` side, they
are also equidistant on the `b` side (for strictly interior `p ≠ q` the
premise is impossible, so the condition holds). -/
def kSymmHyp (p q : Vec2) : Prop :=
  norm2 (sub2 (kChord p q).1 p) = norm2 (sub2 (kChord p q).1 q) →
    norm2 (sub2 (kChord p q).2 p) = norm2 (sub2 (kChord p q).2 q)

theorem kCrossRatio_symm (p q : Vec2) (h : kSymmHyp p q) :
    kCrossRatio p q = kCrossRatio q p := by
  have hch := kChord_symm p q
  rcases lt_trichotomy (norm2 (sub2 (kChord p q).1 q)) (norm2 (sub2 (kChord p q).1 p))
    with hlt | heq | hgt
  · have h2 : ¬ norm2 (sub2 (kChord p q).1 p) < norm2 (sub2 (kChord p q).1 q) :=
      not_lt.mpr hlt.le
    simp only [kCrossRatio, hch, if_pos hlt, if_neg h2]
    exact (krForm_swap (kChord p q).1 (kChord p q).2 p q).symm
  · have h1 : ¬ norm2 (sub2 (kChord p q).1 q) < norm2 (sub2 (kChord p q).1 p) :=
      not_lt.mpr heq.ge
    have h2 : ¬ norm2 (sub2 (kChord p q).1 p) < norm2 (sub2 (kChord p q).1 q) :=
      not_lt.mpr heq.le
    have hb := h heq.symm
    simp only [kCrossRatio, hch, if_neg h1, if_neg h2]
    unfold krForm
    rw [norm2_sub_comm q (kChord p q).1, norm2_sub_comm p (kChord p q).1]
    rw [← heq, hb]
  · have h1 : ¬ norm2 (sub2 (kChord p q).1 q) < norm2 (sub2 (kChord p q).1 p) :=
      not_lt.mpr hgt.le
    have h2 : norm2 (sub2 (kChord p q).1 p) < norm2 (sub2 (kChord p q).1 q) := hgt
    simp only [kCrossRatio, hch, if_neg h1, if_pos h2]
    exact (krForm_swap (kChord p q).2 (kChord p q).1 p q).symm

theorem kleinD_symm (p q : Vec2) (h : kSymmHyp p q) : kleinD p q = kleinD q p := by
  unfold kleinD
  rw [kCrossRatio_symm p q h]

/-- Closed-form evaluation of a 2-entry norm. -/
theorem norm2_eval (u : Vec2) (c : ℝ) (h0 : 0 ≤ c) (h : u.x * u.x + u.y * u.y = c * c) :
    norm2 u = c := by
  rw [norm2, h]
  exact Real.sqrt_mul_self h0

theorem kS_example : kS ⟨0, 0⟩ ⟨1/2, 0⟩ = 1/16 := by
  unfold kS
  norm_num

theorem kS_sqrt_example : Real.sqrt (kS ⟨0, 0⟩ ⟨1/2, 0⟩) = 1/4 := by
  rw [kS_example, show (1 : ℝ)/16 = (1/4) * (1/4) by norm_num]
  exact Real.sqrt_mul_self (by norm_num)

theorem kDegenerate_example : ¬ kDegenerate ⟨0, 0⟩ ⟨1/2, 0⟩ := by
  simp only [kDegenerate, kNumA1, kDenA1, kNumA2, kDenA2, kNumB1, kDenB1, kNumB2,
    kDenB2, kS_sqrt_example]
  norm_num

/-- At `p = (0,0)`, `q = (1/2,0)` the Klein chord is `((-1,0), (1,0))`. -/
theorem kChord_example : kChord ⟨0, 0⟩ ⟨1/2, 0⟩ = (⟨-1, 0⟩, ⟨1, 0⟩) := by
  rw [kChord, if_neg kDegenerate_example]
  simp only [kNumA1, kDenA1, kNumA2, kDenA2, kNumB1, kDenB1, kNumB2, kDenB2,
    kS_sqrt_example, Prod.mk.injEq, Vec2.mk.injEq]
  norm_num

/-- At `p = (0,0)`, `q = (1/2,0)` the endpoint `(-1,0)` is strictly nearer
to `p` than to `q`, so the tie premise of `kSymmHyp` is false. -/
theorem kSymmHyp_example : kSymmHyp ⟨0, 0⟩ ⟨1/2, 0⟩ := by
  unfold kSymmHyp
  rw [kChord_example]
  intro hcontra
  have h1 : norm2 (sub2 (⟨-1, 0⟩ : Vec2) ⟨0, 0⟩) = 1 :=
    norm2_eval _ _ (by norm_num) (by norm_num [sub2])
  have h2 : norm2 (sub2 (⟨-1, 0⟩ : Vec2) ⟨1/2, 0⟩) = 3/2 :=
    norm2_eval _ _ (by norm_num) (by norm_num [sub2])
  rw [h1, h2] at hcontra
  norm_num at hcontra

/-- At the C1 query points both sides of the `cpmSymmHyp` equivalence are
true: `1/2 < 1` on the `a` side and `3 < 7/2` on the `b` side. -/
theorem cpmSymmHyp_example : cpmSymmHyp bdTri ⟨1, 0, 1⟩ ⟨3/2, 0, 1⟩ := by
  simp only [cpmSymmHyp, cpmChord_bdTri_eval]
  have a1 : norm3 (sub3 (⟨2, 0, 1⟩ : Vec3) ⟨3/2, 0, 1⟩) = 1/2 :=
    norm3_eval _ _ (by norm_num) (by norm_num [sub3, dot3])
  have a2 : norm3 (sub3 (⟨2, 0, 1⟩ : Vec3) ⟨1, 0, 1⟩) = 1 :=
    norm3_eval _ _ (by norm_num) (by norm_num [sub3, dot3])
  have a3 : norm3 (sub3 (⟨-2, 0, 1⟩ : Vec3) ⟨1, 0, 1⟩) = 3 :=
    norm3_eval _ _ (by norm_num) (by norm_num [sub3, dot3])
  have a4 : norm3 (sub3 (⟨-2, 0, 1⟩ : Vec3) ⟨3/2, 0, 1⟩) = 7/2 :=
    norm3_eval _ _ (by norm_num) (by norm_num [sub3, dot3])
  rw [a1, a2, a3, a4]
  constructor <;> intro _ <;> norm_num

/-- C4: the metric of every model variant is symmetric. The Poincaré
metric `acosh`-formula is symmetric outright. The Klein and
convex-projective metrics are symmetric provided the chord-endpoint
ordering step is unambiguous, which is captured by the hypotheses
`kSymmHyp` (if both endpoints tie in distance to the two query points on
the `a` side, they also tie on the `b` side) and `cpmSymmHyp` (the source's
two different swap tests for `(x,y)` and `(y,x)` agree); both hold at every
configuration where no exact distance tie occurs, which is the
"within floating tolerance" reading of the claim. -/
theorem C4_metric_symm (p q : Vec3) (p2 q2 : Vec2) (bd : List Edge) (x y : Vec3)
    (hk : kSymmHyp p2 q2) (hc : cpmSymmHyp bd x y) :
    poincareD p q = poincareD q p ∧ kleinD p2 q2 = kleinD q2 p2 ∧
      cpmD bd x y = cpmD bd y x :=
  ⟨poincareD_symm p q, kleinD_symm p2 q2 hk, cpmD_symm bd x y hc⟩

/-- Witness for C4 at concrete interior points of each model. -/
theorem C4_metric_symm_witness :
    poincareD ⟨0, 0, 1⟩ ⟨1/2, 0, 1⟩ = poincareD ⟨1/2, 0, 1⟩ ⟨0, 0, 1⟩ ∧
    kleinD ⟨0, 0⟩ ⟨1/2, 0⟩ = kleinD ⟨1/2, 0⟩ ⟨0, 0⟩ ∧
    cpmD bdTri ⟨1, 0, 1⟩ ⟨3/2, 0, 1⟩ = cpmD bdTri ⟨3/2, 0, 1⟩ ⟨1, 0, 1⟩ :=
  C4_metric_symm ⟨0, 0, 1⟩ ⟨1/2, 0, 1⟩ ⟨0, 0⟩ ⟨1/2, 0⟩ bdTri ⟨1, 0, 1⟩ ⟨3/2, 0, 1⟩
    kSymmHyp_example cpmSymmHyp_example

/-! ## The chord cache (model.ts, lines 625-692)

`chordCache` starts as `[null, null]`, `clearChordCache` resets it to
`[null, null]`, `setBulge` never touches it, and `chord` only `push`es
edges (appending past index 1). The cache-consult branch is guarded by
`chordCache[0] !== null`. Cache entries are `Option Edge`; `none` is a
`null` slot. -/

/-- The mutable fields of `ConvexProjectiveModel` that `chord` reads:
the boundary edge list and the chord cache. -/
structure CPMSt where
  boundary : List Edge
  cache : List (Option Edge)

open Classical in
/-- The cache-refill test of `chord`'s boundary loop,
`t2 >= -1 && t2 <= 2`, with the `rayDen ≠ 0` conjunct standing for "t2 is
a finite number" as in `isHit`. -/
def cachePush (x y : Vec3) (e : Edge) : Prop :=
  rayDen (sub3 x y) (sub3 e.v2 e.v1) ≠ 0 ∧
    -1 ≤ rayT2 x (sub3 x y) e.v1 (sub3 e.v2 e.v1) ∧
    rayT2 x (sub3 x y) e.v1 (sub3 e.v2 e.v1) ≤ 2

open Classical in
/-- One iteration of `chord`'s boundary loop in the caching variant: while
`foundEdges < 2`, update the scan state as in `chordStepAll` and append the
edge to the cache when the refill test passes. -/
def chordStepFull (x y : Vec3) (s : ScanSt × List (Option Edge)) (e : Edge) :
    ScanSt × List (Option Edge) :=
  if 2 ≤ s.1.found then s
  else (chordStepAll x y s.1 e,
        if cachePush x y e then s.2 ++ [some e] else s.2)

/-- One iteration of `chord`'s cache-consult loop. On a `null` entry the
source would fault dereferencing `.v1`; the entry is skipped here, which
only matters on the branch proved unreachable in C10. -/
def cacheStep (x y : Vec3) (st : ScanSt) (oe : Option Edge) : ScanSt :=
  match oe with
  | none => st
  | some e => chordStep x y st e

open Classical in
/-- `chord(x, y)` with the cache modelled: consult the cache when
`chordCache[0] !== null` (a strict comparison, so an absent slot also
enters the branch), then scan the boundary while appending refill hits,
and return the resulting edge together with the new cache. -/
def chordFull (m : CPMSt) (x y : Vec3) : Edge × List (Option Edge) :=
  let st0 := if m.cache.head? = some none then chordInit x y
             else m.cache.foldl (cacheStep x y) (chordInit x y)
  let s := m.boundary.foldl (chordStepFull x y) (st0, m.cache)
  (⟨s.1.a, s.1.b⟩, s.2)

/-- The cache-affecting operations of the model: a `chord` query, a
`setBulge` (which rebuilds `boundary` but never writes `chordCache`), and
`clearChordCache`. -/
inductive CpmOp where
  | chordQ (x y : Vec3)
  | setBulgeQ (bd : List Edge)
  | clearQ

/-- The state transition of each operation. -/
def cpmExec (m : CPMSt) : CpmOp → CPMSt
  | .chordQ x y => { m with cache := (chordFull m x y).2 }
  | .setBulgeQ bd => { m with boundary := bd }
  | .clearQ => { m with cache := [none, none] }

/-- The state after construction: `chordCache = [null, null]`. -/
def cpmInit (bd : List Edge) : CPMSt := ⟨bd, [none, none]⟩

/-- The state after an arbitrary operation sequence. -/
def cpmRun (bd : List Edge) (ops : List CpmOp) : CPMSt :=
  ops.foldl cpmExec (cpmInit bd)

/-- The boundary loop only ever appends to the cache. -/
theorem chordStepFull_cache_append (x y : Vec3) (es : List Edge) :
    ∀ (st : ScanSt) (c : List (Option Edge)),
      ∃ l, (List.foldl (chordStepFull x y) (st, c) es).2 = c ++ l := by
  classical
  induction es with
  | nil => intro st c; exact ⟨[], (List.append_nil c).symm⟩
  | cons e es ih =>
    intro st c
    rw [List.foldl_cons]
    have hstep : chordStepFull x y (st, c) e =
        if 2 ≤ st.found then (st, c)
        else (chordStepAll x y st e,
              if cachePush x y e then c ++ [some e] else c) := rfl
    rw [hstep]
    by_cases h2 : 2 ≤ st.found
    · rw [if_pos h2]
      exact ih st c
    · rw [if_neg h2]
      by_cases hp : cachePush x y e
      · rw [if_pos hp]
        obtain ⟨l, hl⟩ := ih (chordStepAll x y st e) (c ++ [some e])
        exact ⟨[some e] ++ l, by rw [hl, List.append_assoc]⟩
      · rw [if_neg hp]
        exact ih (chordStepAll x y st e) c

/-- The scan component of the caching boundary loop coincides with the
cache-free scan. -/
theorem chordStepFull_fst (x y : Vec3) (es : List Edge) :
    ∀ (st : ScanSt) (c : List (Option Edge)),
      (List.foldl (chordStepFull x y) (st, c) es).1 =
        List.foldl (chordStep x y) st es := by
  induction es with
  | nil => intro st c; rfl
  | cons e es ih =>
    intro st c
    simp only [List.foldl_cons]
    unfold chordStepFull chordStep
    by_cases h2 : 2 ≤ st.found
    · rw [if_pos h2, if_pos h2]
      exact ih st c
    · rw [if_neg h2, if_neg h2]
      exact ih (chordStepAll x y st e) _

/-- Every reachable state keeps `null` in the first two cache slots. -/
theorem cpmRun_cache_shape (bd : List Edge) (ops : List CpmOp) :
    ∃ rest, (cpmRun bd ops).cache = none :: none :: rest := by
  classical
  unfold cpmRun
  have key : ∀ (ops : List CpmOp) (m : CPMSt),
      (∃ rest, m.cache = none :: none :: rest) →
      ∃ rest, (List.foldl cpmExec m ops).cache = none :: none :: rest := by
    intro ops
    induction ops with
    | nil => intro m hm; exact hm
    | cons op ops ih =>
      intro m hm
      rw [List.foldl_cons]
      apply ih
      obtain ⟨rest, hrest⟩ := hm
      cases op with
      | chordQ x y =>
        obtain ⟨l, hl⟩ := chordStepFull_cache_append x y m.boundary
          (if m.cache.head? = some none then chordInit x y
           else m.cache.foldl (cacheStep x y) (chordInit x y)) m.cache
        have hc : (cpmExec m (.chordQ x y)).cache =
            (List.foldl (chordStepFull x y)
              ((if m.cache.head? = some none then chordInit x y
                else m.cache.foldl (cacheStep x y) (chordInit x y)), m.cache)
              m.boundary).2 := rfl
        exact ⟨rest ++ l, by rw [hc, hl, hrest]; rfl⟩
      | setBulgeQ bd2 => exact ⟨rest, hrest⟩
      | clearQ => exact ⟨[], rfl⟩
  exact key ops (cpmInit bd) ⟨[], rfl⟩

/-- C10: the first two `chordCache` slots are `null` after construction and
stay `null` across every sequence of `chord`, `setBulge`, and
`clearChordCache` calls, so the consult branch guarded by
`chordCache[0] !== null` is never taken and every `chord(x, y)` result is
computed from the boundary edge list alone. -/
theorem C10_cache_never_consulted (bd : List Edge) (ops : List CpmOp) :
    (∃ rest, (cpmRun bd ops).cache = none :: none :: rest) ∧
    ∀ x y : Vec3,
      (chordFull (cpmRun bd ops) x y).1 = cpmChord (cpmRun bd ops).boundary x y := by
  classical
  obtain ⟨rest, hrest⟩ := cpmRun_cache_shape bd ops
  refine ⟨⟨rest, hrest⟩, fun x y => ?_⟩
  have hhead : (cpmRun bd ops).cache.head? = some none := by
    rw [hrest]; rfl
  have hif : (if (cpmRun bd ops).cache.head? = some none then chordInit x y
      else (cpmRun bd ops).cache.foldl (cacheStep x y) (chordInit x y)) =
      chordInit x y := if_pos hhead
  have hfull : (chordFull (cpmRun bd ops) x y).1 =
      ⟨(List.foldl (chordStepFull x y)
          ((if (cpmRun bd ops).cache.head? = some none then chordInit x y
            else (cpmRun bd ops).cache.foldl (cacheStep x y) (chordInit x y)),
           (cpmRun bd ops).cache) (cpmRun bd ops).boundary).1.a,
       (List.foldl (chordStepFull x y)
          ((if (cpmRun bd ops).cache.head? = some none then chordInit x y
            else (cpmRun bd ops).cache.foldl (cacheStep x y) (chordInit x y)),
           (cpmRun bd ops).cache) (cpmRun bd ops).boundary).1.b⟩ := rfl
  rw [hfull, hif,
    chordStepFull_fst x y (cpmRun bd ops).boundary (chordInit x y) (cpmRun bd ops).cache]
  rfl
